import Mathlib

/-!
Verification development for the monistode binutils shared core: a shallow
embedding of the bit-packed byte container, the section/symbol/relocation
data model, the object-file serializer and the executable-image builder,
with theorems checking the natural-language specification against the code.

Python exceptions are modelled with `Except PyErr`; machine integers are
`Nat`/`Int` with explicit range checks where the `struct` module would
raise.
-/

namespace Monistode

/-- The kinds of runtime errors the embedded Python code can raise. -/
inductive PyErr where
  | indexError
  | valueError
  | notImplementedError
  | typeError
  | attributeError
  | keyError
  | structError
deriving Repr, DecidableEq

/-! ### Bit-level primitives (model of the `bitstruct` library)

A Python `bytearray` of `n` bytes is modelled as a list of `8 * n` bits,
most-significant bit of each byte first, which is exactly the bit
numbering `bitstruct` uses for its unsigned `u{w}` format. -/

/-- The value denoted by a bit string, most-significant bit first. -/
def bitsToNat : List Bool → Nat
  | [] => 0
  | b :: bs => b.toNat * 2 ^ bs.length + bitsToNat bs

/-- The `w`-bit most-significant-first representation of `v` (its low `w` bits). -/
def natToBits : Nat → Nat → List Bool
  | 0, _ => []
  | w + 1, v => v.testBit w :: natToBits w v

/-- Python's `-(-n // 8)`: division by 8 rounding up. -/
def ceil8 (n : Nat) : Nat := (n + 7) / 8

/-- Group a bit string into 8-bit bytes (the inverse of `bytesToBits` on
bit strings whose length is a multiple of 8; the trailing partial-byte
case cannot arise from a `bytearray`). -/
def bitsToBytes : List Bool → List Nat
  | b0 :: b1 :: b2 :: b3 :: b4 :: b5 :: b6 :: b7 :: rest =>
      bitsToNat [b0, b1, b2, b3, b4, b5, b6, b7] :: bitsToBytes rest
  | [] => []
  | rest => [bitsToNat rest]

/-- The bit string of a byte sequence, most-significant bit of each byte first. -/
def bytesToBits (bytes : List Nat) : List Bool :=
  (bytes.map (natToBits 8)).flatten

/-- `bitstruct.unpack_from("u{w}", data, off)[0]`: read the `w` bits at bit
offset `off`; raises when the buffer is too short. -/
def bitstructUnpackFrom (w : Nat) (data : List Bool) (off : Nat) : Except PyErr Nat :=
  if off + w ≤ data.length then .ok (bitsToNat ((data.drop off).take w))
  else .error .structError

/-- `bitstruct.pack_into("u{w}", data, off, v)`: overwrite the `w` bits at
bit offset `off` with the representation of `v`; raises when the buffer is
too short or the value does not fit the unsigned field. -/
def bitstructPackInto (w : Nat) (data : List Bool) (off : Nat) (v : Nat) :
    Except PyErr (List Bool) :=
  if off + w ≤ data.length ∧ v < 2 ^ w then
    .ok (data.take off ++ natToBits w v ++ data.drop (off + w))
  else .error .structError

/-! ### `bytearray.ByteArray` — the bit-packed variable-width byte container -/

/-- State of `monistode_binutils_shared.bytearray.ByteArray`: unit width
`byte` in bits, the backing `bytearray` as a bit list `data`, the logical
`length` and the `capacity` in units. -/
structure ByteArray where
  byte : Nat
  data : List Bool
  length : Nat
  capacity : Nat
deriving Repr, DecidableEq

/-- `ByteArray.__init__(byte, capacity)`: a zeroed backing buffer of
`-(-capacity * byte // 8)` bytes. -/
def ByteArray.mkNew (byte : Nat) (capacity : Nat := 0) : ByteArray :=
  { byte := byte
    data := List.replicate (8 * ceil8 (capacity * byte)) false
    length := 0
    capacity := capacity }

/-- `ByteArray.__getitem__`: bounds check against the logical length, then
`bitstruct.unpack_from` at bit offset `index * byte`. -/
def ByteArray.get (a : ByteArray) (i : Nat) : Except PyErr Nat :=
  if i ≥ a.length then .error .indexError
  else bitstructUnpackFrom a.byte a.data (i * a.byte)

/-- `ByteArray.__setitem__`: bounds check against the logical length, then
`bitstruct.pack_into` at bit offset `index * byte`. -/
def ByteArray.set (a : ByteArray) (i : Nat) (v : Nat) : Except PyErr ByteArray :=
  if i ≥ a.length then .error .indexError
  else
    match bitstructPackInto a.byte a.data (i * a.byte) v with
    | .ok d => .ok { a with data := d }
    | .error e => .error e

/-- `ByteArray.append`: bump the length, double the capacity (growing the
backing buffer by `-(-new_capacity * byte // 8)` fresh zero bytes) when the
new length reaches it, then write the value at the last index. -/
def ByteArray.append (a : ByteArray) (v : Nat) : Except PyErr ByteArray :=
  let length := a.length + 1
  let a' :=
    if length ≥ a.capacity then
      let cap1 := if a.capacity = 0 then 1 else a.capacity
      let capacity := cap1 * 2
      { a with length := length, capacity := capacity
               data := a.data ++ List.replicate (8 * ceil8 (capacity * a.byte)) false }
    else { a with length := length }
  a'.set (length - 1) v

/-- `ByteArray.to_bytes`: the first `-(-length * byte // 8)` backing bytes. -/
def ByteArray.toBytes (a : ByteArray) : List Nat :=
  bitsToBytes (a.data.take (8 * ceil8 (a.length * a.byte)))

/-- `ByteArray.from_bytes(data, length)`: replace the backing buffer,
length and capacity unconditionally. -/
def ByteArray.fromBytes (a : ByteArray) (data : List Nat) (length : Nat) : ByteArray :=
  { a with data := bytesToBits data, length := length, capacity := length }

/-- `ByteArray.extend`: append each value in order. -/
def ByteArray.extendList (a : ByteArray) (vs : List Nat) : Except PyErr ByteArray :=
  vs.foldlM ByteArray.append a

/-- `ByteArray.clear`: reset the logical length only. -/
def ByteArray.clear (a : ByteArray) : ByteArray :=
  { a with length := 0 }

/-- `ByteArray.__iter__`: the sequence of values at indices `0..length-1`. -/
def ByteArray.toListM (a : ByteArray) : Except PyErr (List Nat) :=
  (List.range a.length).mapM a.get

/-- Well-formedness of a `ByteArray` state: the logical length fits the
capacity, the backing buffer covers the capacity, and the buffer is a
whole number of bytes.  Every state reachable from `__init__` by the class
methods satisfies this. -/
def ByteArray.WF (a : ByteArray) : Prop :=
  a.length ≤ a.capacity ∧ a.capacity * a.byte ≤ a.data.length ∧ a.data.length % 8 = 0

/-- The `byte`-wide bit field of unit `i` inside the backing buffer. -/
def ByteArray.elemBits (a : ByteArray) (i : Nat) : List Bool :=
  (a.data.drop (i * a.byte)).take a.byte

/-! ### Core data model: `Location`, `Symbol`, relocations, `Flags` -/

/-- `location.Location`: a section name plus an offset within it. -/
structure Location where
  section' : String
  offset : Int
deriving Repr, DecidableEq

/-- `Location.apply_offset`. -/
def Location.applyOffset (l : Location) (off : Int) : Location :=
  { l with offset := l.offset + off }

/-- `symbol.Symbol`. -/
structure Symbol where
  location : Location
  name : String
deriving Repr, DecidableEq

/-- `relocation.RelocationTargetSymbol`. -/
structure RelocationTargetSymbol where
  name : String
  sectionName : String
deriving Repr, DecidableEq

/-- `relocation.SymbolRelocation`: note the dataclass has exactly the four
fields `location`, `symbol`, `offset`, `relative` — it has no `size` field. -/
structure SymbolRelocation where
  location : Location
  symbol : RelocationTargetSymbol
  offset : Int
  relative : Bool
deriving Repr, DecidableEq

/-- `segment.common.Flags`: five segment attribute booleans. -/
structure Flags where
  executable : Bool
  writable : Bool
  readable : Bool
  special : Bool := false
  stripped : Bool := false
deriving Repr, DecidableEq

/-- `Flags.__bytes__`: `struct.pack("B", stripped<<4 | special<<3 | readable<<2
| writable<<1 | executable)`, one byte. -/
def Flags.toBytesList (f : Flags) : List Nat :=
  [f.stripped.toNat <<< 4 |||
   f.special.toNat <<< 3 |||
   f.readable.toNat <<< 2 |||
   f.writable.toNat <<< 1 |||
   f.executable.toNat]

/-- `Flags.from_bytes`: decode the five low bits of the first byte; raises
when the input is empty (`bytes_[0]`). -/
def Flags.fromBytes (bytes' : List Nat) : Except PyErr Flags :=
  match bytes' with
  | [] => .error .indexError
  | b :: _ =>
    .ok { executable := b &&& 0b1 != 0
          writable := b &&& 0b10 != 0
          readable := b &&& 0b100 != 0
          special := b &&& 0b1000 != 0
          stripped := b &&& 0b10000 != 0 }

/-! ### `struct` helpers for the 4-byte little-endian integers of the formats -/

/-- `struct.pack("<I", v)`: four little-endian bytes; raises when the value
is out of the unsigned 32-bit range. -/
def packU32 (v : Int) : Except PyErr (List Nat) :=
  if 0 ≤ v ∧ v < 2 ^ 32 then
    let n := v.toNat
    .ok [n % 256, n / 256 % 256, n / 65536 % 256, n / 16777216 % 256]
  else .error .structError

/-- `struct.unpack("<I", ...)` on the first four bytes; raises when the
buffer is shorter. -/
def unpackU32 (bytes' : List Nat) : Except PyErr Nat :=
  match bytes' with
  | b0 :: b1 :: b2 :: b3 :: _ => .ok (b0 + b1 * 256 + b2 * 65536 + b3 * 16777216)
  | _ => .error .structError

/-- `section.section_type.SectionType[name.upper()].value` for a lower-case
section name; raises `KeyError` for unknown names. -/
def sectionTypeValue (name : String) : Except PyErr Nat :=
  if name = "text" then .ok 0
  else if name = "data" then .ok 1
  else if name = "bss" then .ok 2
  else if name = "symbol_table" then .ok 3
  else if name = "relocation_table" then .ok 4
  else .error .keyError

/-! ### Python `str` vs `bytes` dictionary keys

The symbol/relocation tables key their name pools by `name.encode("utf-8")`
(a `bytes` object), while `SymbolTable.append` tests membership of the plain
`str`.  In Python a `str` never equals a `bytes`, so the two kinds are kept
distinct here and their equality is decidably false across kinds. -/
inductive PyStrOrBytes where
  /-- A Python `str` value. -/
  | pystr (s : String)
  /-- The Python `bytes` value `s.encode("utf-8")`. -/
  | pybytes (s : String)
deriving Repr, DecidableEq

/-- The UTF-8 encoding of one code point. -/
def utf8EncodeChar (c : Char) : List Nat :=
  let n := c.toNat
  if n < 128 then [n]
  else if n < 2048 then [192 ||| n / 64, 128 ||| n % 64]
  else if n < 65536 then [224 ||| n / 4096, 128 ||| n / 64 % 64, 128 ||| n % 64]
  else [240 ||| n / 262144, 128 ||| n / 4096 % 64, 128 ||| n / 64 % 64, 128 ||| n % 64]

/-- The byte sequence `s.encode("utf-8")`. -/
def utf8Encode (s : String) : List Nat :=
  (s.data.map utf8EncodeChar).flatten

/-- `len` of a dictionary key: for the `bytes` keys that actually occur this
is the UTF-8 byte length of the encoded string. -/
def PyStrOrBytes.pyLen : PyStrOrBytes → Nat
  | .pystr s => s.length
  | .pybytes s => (utf8Encode s).length

/-- Insertion-ordered dictionary lookup (`d[k]`), raising `KeyError` when
the key is absent. -/
def dictGet (d : List (PyStrOrBytes × Nat)) (k : PyStrOrBytes) : Except PyErr Nat :=
  match d.find? (fun p => p.1 == k) with
  | some p => .ok p.2
  | none => .error .keyError

/-- Membership test `k in d` on an insertion-ordered dictionary. -/
def dictContains (d : List (PyStrOrBytes × Nat)) (k : PyStrOrBytes) : Bool :=
  d.any (fun p => p.1 == k)

/-! ### `section.text.Text` — the content-bearing text section -/

/-- `section.text.Text`: a `ByteArray` of the architecture byte width plus
attached symbols and relocations.  Its section name is the class attribute
`"text"`. -/
structure Text where
  byte : Nat
  data : ByteArray
  symbols : List Symbol
  relocations : List SymbolRelocation
deriving Repr, DecidableEq

/-- `Text.__init__(byte)`. -/
def Text.mkNew (byte : Nat) : Text :=
  { byte := byte, data := ByteArray.mkNew byte 0, symbols := [], relocations := [] }

/-- `Text.__len__`: the logical length of the underlying `ByteArray`. -/
def Text.length (t : Text) : Nat := t.data.length

/-- `Text.add_byte`. -/
def Text.addByte (t : Text) (b : Nat) : Except PyErr Text := do
  let d ← t.data.append b
  .ok { t with data := d }

/-- `Text.add_symbol`. -/
def Text.addSymbol (t : Text) (s : Symbol) : Text :=
  { t with symbols := t.symbols ++ [s] }

/-- `Text.add_relocation`. -/
def Text.addRelocation (t : Text) (r : SymbolRelocation) : Text :=
  { t with relocations := t.relocations ++ [r] }

/-- `Text.offset_symbols`: translate every symbol location by `offset`. -/
def Text.offsetSymbols (symbols : List Symbol) (offset : Int) : List Symbol :=
  symbols.map (fun s => { location := s.location.applyOffset offset, name := s.name })

/-- `Text.offset_relocations`: translate every relocation location by `offset`. -/
def Text.offsetRelocations (relocations : List SymbolRelocation) (offset : Int) :
    List SymbolRelocation :=
  relocations.map (fun r =>
    { location := r.location.applyOffset offset
      symbol := r.symbol
      offset := r.offset
      relative := r.relative })

/-- `Text.merge`: append every byte of `other` onto `self`'s data, then
extend the symbol and relocation lists with `other`'s, translated by
`len(self)` — which the code evaluates only *after* the bytes were
appended, i.e. by the post-merge length. -/
def Text.merge (t other : Text) : Except PyErr Text := do
  let otherBytes ← other.data.toListM
  let d ← t.data.extendList otherBytes
  .ok { t with
        data := d
        symbols := t.symbols ++ Text.offsetSymbols other.symbols (d.length : Int)
        relocations :=
          t.relocations ++ Text.offsetRelocations other.relocations (d.length : Int) }

/-! ### `section.symbol_table.SymbolTable` -/

/-- `section.symbol_table.SymbolTable`: an ordered list of symbols plus the
name pool dictionary mapping `bytes`-encoded names to string-pool offsets.
Its section name is the class attribute `"symbol_table"`. -/
structure SymbolTable where
  symbols : List Symbol
  names : List (PyStrOrBytes × Nat)
deriving Repr, DecidableEq

/-- `SymbolTable.__init__`. -/
def SymbolTable.mkNew : SymbolTable := { symbols := [], names := [] }

/-- `SymbolTable.append_name`: insert `name.encode("utf-8")` with offset
`sum(len(key) + 1)` over the keys already present, unless already a key. -/
def SymbolTable.appendName (t : SymbolTable) (name : String) : SymbolTable :=
  if dictContains t.names (.pybytes name) then t
  else
    { t with names :=
        t.names ++ [(.pybytes name, (t.names.map (fun p => p.1.pyLen + 1)).sum)] }

/-- `SymbolTable.append`: raises a duplicate-symbol `ValueError` when
`symbol.name in self.names` — but the dictionary keys are `bytes` while
`symbol.name` is a `str`, so the test compares across kinds. -/
def SymbolTable.append (t : SymbolTable) (symbol : Symbol) : Except PyErr SymbolTable :=
  if dictContains t.names (.pystr symbol.name) then .error .valueError
  else .ok ((SymbolTable.appendName { t with symbols := t.symbols ++ [symbol] }
      symbol.name))

/-- `SymbolTable.symbol_data`: `struct.pack("<III", section_id, offset,
name_addr)` for one symbol. -/
def SymbolTable.symbolData (t : SymbolTable) (s : Symbol) : Except PyErr (List Nat) := do
  let sid ← sectionTypeValue s.location.section'
  let nameAddr ← dictGet t.names (.pybytes s.name)
  let b0 ← packU32 (sid : Int)
  let b1 ← packU32 s.location.offset
  let b2 ← packU32 (nameAddr : Int)
  .ok (b0 ++ b1 ++ b2)

/-- The string pool: every key in ascending stored-offset order, each
followed by a NUL byte (`sorted(names, key=names.get)`). -/
def namePool (names : List (PyStrOrBytes × Nat)) : List Nat :=
  ((names.mergeSort (fun p q => p.2 ≤ q.2)).map
    (fun p => (match p.1 with
      | .pystr s => utf8Encode s
      | .pybytes s => utf8Encode s) ++ [0])).flatten

/-- `SymbolTable.data`: the packed symbol records followed by the name pool. -/
def SymbolTable.dataBytes (t : SymbolTable) : Except PyErr (List Nat) := do
  let recs ← t.symbols.mapM t.symbolData
  .ok (recs.flatten ++ namePool t.names)

/-- `SymbolTable.__len__`: the number of symbols. -/
def SymbolTable.length (t : SymbolTable) : Nat := t.symbols.length

/-- `SymbolTable.add_symbol`: `raise NotImplementedError`, unconditionally. -/
def SymbolTable.addSymbol (_t : SymbolTable) (_s : Symbol) : Except PyErr SymbolTable :=
  .error .notImplementedError

/-- `SymbolTable.add_relocation`: `raise NotImplementedError`, unconditionally. -/
def SymbolTable.addRelocation (_t : SymbolTable) (_r : SymbolRelocation) :
    Except PyErr SymbolTable :=
  .error .notImplementedError

/-- `SymbolTable.merge`: `raise NotImplementedError`, unconditionally. -/
def SymbolTable.mergeTable (_t _other : SymbolTable) : Except PyErr SymbolTable :=
  .error .notImplementedError

/-! ### `section.relocation_table.RelocationTable` -/

/-- `section.relocation_table.RelocationTable`: an ordered list of
relocations plus the name pool dictionary.  Its section name is the class
attribute `"relocation_table"`. -/
structure RelocationTable where
  relocations : List SymbolRelocation
  names : List (PyStrOrBytes × Nat)
deriving Repr, DecidableEq

/-- `RelocationTable.__init__`. -/
def RelocationTable.mkNew : RelocationTable := { relocations := [], names := [] }

/-- `RelocationTable.append_name`: same pool logic as the symbol table. -/
def RelocationTable.appendName (t : RelocationTable) (name : String) : RelocationTable :=
  if dictContains t.names (.pybytes name) then t
  else
    { t with names :=
        t.names ++ [(.pybytes name, (t.names.map (fun p => p.1.pyLen + 1)).sum)] }

/-- `RelocationTable.append`: append unconditionally (no uniqueness check)
and record the target name in the pool. -/
def RelocationTable.append (t : RelocationTable) (r : SymbolRelocation) : RelocationTable :=
  RelocationTable.appendName { t with relocations := t.relocations ++ [r] } r.symbol.name

/-- `RelocationTable.relocation_data`: evaluates
`section_name_to_id(location.section)`, `names[symbol.name.encode()]` and
`section_name_to_id(symbol.section_name)` in order, then reads
`relocation.size` — an attribute `SymbolRelocation` does not define (its
fields are `location`, `symbol`, `offset`, `relative`), so the access
raises `AttributeError` before `struct.pack` is ever called. -/
def RelocationTable.relocationData (t : RelocationTable) (r : SymbolRelocation) :
    Except PyErr (List Nat) := do
  let _sid ← sectionTypeValue r.location.section'
  let _nameAddr ← dictGet t.names (.pybytes r.symbol.name)
  let _sid2 ← sectionTypeValue r.symbol.sectionName
  .error .attributeError

/-- `RelocationTable.data`: the packed relocation records followed by the
name pool. -/
def RelocationTable.dataBytes (t : RelocationTable) : Except PyErr (List Nat) := do
  let recs ← t.relocations.mapM t.relocationData
  .ok (recs.flatten ++ namePool t.names)

/-- `RelocationTable.__len__`: the number of relocations. -/
def RelocationTable.length (t : RelocationTable) : Nat := t.relocations.length

/-- `RelocationTable.add_symbol`: `raise NotImplementedError`, unconditionally. -/
def RelocationTable.addSymbol (_t : RelocationTable) (_s : Symbol) :
    Except PyErr RelocationTable :=
  .error .notImplementedError

/-- `RelocationTable.add_relocation`: `raise NotImplementedError`, unconditionally. -/
def RelocationTable.addRelocation (_t : RelocationTable) (_r : SymbolRelocation) :
    Except PyErr RelocationTable :=
  .error .notImplementedError

/-- `RelocationTable.merge`: `raise NotImplementedError`, unconditionally. -/
def RelocationTable.mergeTable (_t _other : RelocationTable) : Except PyErr RelocationTable :=
  .error .notImplementedError

/-! ### `object_manager` — the object-file serializer -/

/-- `object_manager.Parameters`: five unsigned 32-bit header fields. -/
structure Parameters where
  opcodeSize : Nat
  textByte : Nat
  dataByte : Nat
  textAddress : Nat
  dataAddress : Nat
deriving Repr, DecidableEq

/-- `Parameters.to_bytes`: `struct.pack("<IIIII", ...)`. -/
def Parameters.toBytes (p : Parameters) : Except PyErr (List Nat) := do
  let b0 ← packU32 (p.opcodeSize : Int)
  let b1 ← packU32 (p.textByte : Int)
  let b2 ← packU32 (p.dataByte : Int)
  let b3 ← packU32 (p.textAddress : Int)
  let b4 ← packU32 (p.dataAddress : Int)
  .ok (b0 ++ b1 ++ b2 ++ b3 ++ b4)

/-- `object_manager.SectionTableEntry`: a type code and a logical size. -/
structure SectionTableEntry where
  sectionType : Nat
  sectionSize : Nat
deriving Repr, DecidableEq

/-- `SectionTableEntry.to_bytes`: `struct.pack("<II", ...)`. -/
def SectionTableEntry.toBytes (e : SectionTableEntry) : Except PyErr (List Nat) := do
  let b0 ← packU32 (e.sectionType : Int)
  let b1 ← packU32 (e.sectionSize : Int)
  .ok (b0 ++ b1)

/-- A section held by an `ObjectManager`: one of the three section classes. -/
inductive ObjSection where
  /-- A `Text` content section. -/
  | text (t : Text)
  /-- A `SymbolTable` table section. -/
  | symbolTable (t : SymbolTable)
  /-- A `RelocationTable` table section. -/
  | relocationTable (t : RelocationTable)
deriving Repr, DecidableEq

/-- The `name` class attribute of a section. -/
def ObjSection.name : ObjSection → String
  | .text _ => "text"
  | .symbolTable _ => "symbol_table"
  | .relocationTable _ => "relocation_table"

/-- The `data` property of a section (the table variants may raise). -/
def ObjSection.dataBytes : ObjSection → Except PyErr (List Nat)
  | .text t => .ok t.data.toBytes
  | .symbolTable t => t.dataBytes
  | .relocationTable t => t.dataBytes

/-- `len(section)`: the logical entry count. -/
def ObjSection.length : ObjSection → Nat
  | .text t => t.length
  | .symbolTable t => t.length
  | .relocationTable t => t.length

/-- The `symbols` property (empty on the table sections). -/
def ObjSection.symbols : ObjSection → List Symbol
  | .text t => t.symbols
  | .symbolTable _ => []
  | .relocationTable _ => []

/-- The `relocations` property (empty on the table sections). -/
def ObjSection.relocations : ObjSection → List SymbolRelocation
  | .text t => t.relocations
  | .symbolTable _ => []
  | .relocationTable _ => []

/-- `object_manager.ObjectManager`: parameters plus the ordered section list. -/
structure ObjectManager where
  parameters : Parameters
  sections : List ObjSection
deriving Repr, DecidableEq

/-- The accumulator of the `ObjectManager.to_bytes` loop: the collected
section payloads, the section-table entries, and the freshly built symbol
and relocation tables. -/
structure ToBytesAcc where
  sectionsData : List (List Nat)
  sectionsTable : List SectionTableEntry
  symbolTable : SymbolTable
  relocationTable : RelocationTable
deriving Repr, DecidableEq

/-- One iteration of the `ObjectManager.to_bytes` loop.  Note the loop
skips only `SymbolTable` instances (`isinstance(section, SymbolTable)`):
a `RelocationTable` section in the list is serialized like a content
section. -/
def ObjectManager.toBytesStep (acc : ToBytesAcc) (s : ObjSection) : Except PyErr ToBytesAcc :=
  match s with
  | .symbolTable _ => .ok acc
  | s => do
    let data ← s.dataBytes
    let tid ← sectionTypeValue s.name
    let symtab ← s.symbols.foldlM SymbolTable.append acc.symbolTable
    let reltab := s.relocations.foldl RelocationTable.append acc.relocationTable
    .ok { sectionsData := acc.sectionsData ++ [data]
          sectionsTable := acc.sectionsTable ++ [⟨tid, s.length⟩]
          symbolTable := symtab
          relocationTable := reltab }

/-- The body of `ObjectManager.to_bytes` up to the return expression: run
the loop over the sections, then append the freshly built symbol table and
relocation table as the last two emitted sections. -/
def ObjectManager.toBytesCore (m : ObjectManager) : Except PyErr ToBytesAcc := do
  let acc ← m.sections.foldlM ObjectManager.toBytesStep
    { sectionsData := []
      sectionsTable := []
      symbolTable := SymbolTable.mkNew
      relocationTable := RelocationTable.mkNew }
  let symtabData ← acc.symbolTable.dataBytes
  let reltabData ← acc.relocationTable.dataBytes
  .ok { acc with
        sectionsData := acc.sectionsData ++ [symtabData, reltabData]
        sectionsTable := acc.sectionsTable ++
          [⟨3, acc.symbolTable.length⟩, ⟨4, acc.relocationTable.length⟩] }

/-- `ObjectManager.to_bytes`: header (parameters plus table size), then the
packed section-table entries, then the concatenated section payloads. -/
def ObjectManager.toBytes (m : ObjectManager) : Except PyErr (List Nat) := do
  let acc ← m.toBytesCore
  let headerBytes ← m.parameters.toBytes
  let tableSize ← packU32 (acc.sectionsTable.length : Int)
  let entryBytes ← acc.sectionsTable.mapM SectionTableEntry.toBytes
  .ok (headerBytes ++ tableSize ++ entryBytes.flatten ++ acc.sectionsData.flatten)

/-! ### `executable` — placed binaries and the executable file -/

/-- `executable.PlacedBinary`: a `ByteArray` payload at a byte `offset`,
with virtual `size` and permission flags. -/
structure PlacedBinary where
  data : ByteArray
  offset : Int
  size : Nat
  flags : Flags
deriving Repr, DecidableEq

/-- `PlacedBinary.from_bytes`: a fresh `ByteArray(byte_size, size)` whose
contents are replaced by `from_bytes(bytes_, size)`. -/
def PlacedBinary.fromBytes (bytes' : List Nat) (size : Nat) (vsize : Nat) (offset : Int)
    (flags : Flags) (byteSize : Nat) : PlacedBinary :=
  { data := (ByteArray.mkNew byteSize size).fromBytes bytes' size
    offset := offset
    size := vsize
    flags := flags }

/-- The padding phase of `PlacedBinary.extend` (its first `if` block): when
`other.offset` lies beyond the end of `self`'s data, fail if the gap
exceeds `max_extend`, otherwise append that many zero units. -/
def PlacedBinary.extendPadded (self other : PlacedBinary) (maxExtend : Option Int) :
    Except PyErr PlacedBinary :=
  if (self.data.length : Int) < other.offset - self.offset then
    match maxExtend with
    | some m =>
      if other.offset - self.offset - (self.data.length : Int) > m then
        .error .valueError
      else
        match self.data.extendList
            (List.replicate (other.offset - self.offset - (self.data.length : Int)).toNat 0) with
        | .error e => .error e
        | .ok d => .ok { self with data := d }
    | none =>
      match self.data.extendList
          (List.replicate (other.offset - self.offset - (self.data.length : Int)).toNat 0) with
      | .error e => .error e
      | .ok d => .ok { self with data := d }
  else .ok self

/-- `PlacedBinary.extend`: pad with zero units up to `other.offset` (failing
when the gap exceeds `max_extend`), then require equal unit widths, then
append `other`'s units. -/
def PlacedBinary.extend (self other : PlacedBinary) (maxExtend : Option Int) :
    Except PyErr PlacedBinary :=
  match self.extendPadded other maxExtend with
  | .error e => .error e
  | .ok self1 =>
    if self1.data.byte ≠ other.data.byte then .error .valueError
    else
      match other.data.toListM with
      | .error e => .error e
      | .ok vs =>
        match self1.data.extendList vs with
        | .error e => .error e
        | .ok d => .ok { self1 with data := d }

/-- `executable.SegmentTableEntry`: start, unit width, on-disk unit count,
virtual size and flags of one placed segment. -/
structure SegmentTableEntry where
  start : Int
  byteSize : Nat
  size : Nat
  vsize : Nat
  flags : Flags
deriving Repr, DecidableEq

/-- `SegmentTableEntry.__bytes__`: `struct.pack("<IIII", ...)` plus the
flags byte. -/
def SegmentTableEntry.toBytes (e : SegmentTableEntry) : Except PyErr (List Nat) := do
  let b0 ← packU32 e.start
  let b1 ← packU32 (e.byteSize : Int)
  let b2 ← packU32 (e.size : Int)
  let b3 ← packU32 (e.vsize : Int)
  .ok (b0 ++ b1 ++ b2 ++ b3 ++ e.flags.toBytesList)

/-- `SegmentTableEntry.for_segment`: `start` from the placement offset,
`size` from the on-disk unit count, `vsize` from the virtual size. -/
def SegmentTableEntry.forSegment (segment : PlacedBinary) : SegmentTableEntry :=
  { start := segment.offset
    byteSize := segment.data.byte
    size := segment.data.length
    vsize := segment.size
    flags := segment.flags }

/-- `SegmentTableEntry.segment_disk_size`: `-(-size // byte_size)`. -/
def SegmentTableEntry.segmentDiskSize (e : SegmentTableEntry) : Nat :=
  (e.size + e.byteSize - 1) / e.byteSize

/-- `executable.SegmentTable`. -/
structure SegmentTable where
  nSegments : Nat
  entries : List SegmentTableEntry
deriving Repr, DecidableEq

/-- `SegmentTable.from_bytes(bytes_, offset)` with `offset = 5`: read
`n_segments` from the four bytes at offset 5 (raising when fewer remain);
the entry loop then evaluates `len(SegmentTableEntry) * i` — `len` applied
to the *class*, which raises `TypeError` for any nonzero count. -/
def SegmentTable.fromBytes (bytes' : List Nat) (offset : Nat) : Except PyErr SegmentTable := do
  let n ← unpackU32 (bytes'.drop offset)
  if n = 0 then .ok { nSegments := 0, entries := [] }
  else .error .typeError

/-- `executable.ExecutableHeader`. -/
structure ExecutableHeader where
  harvard : Bool
  entryPoint : Nat
  segmentTable : SegmentTable
deriving Repr, DecidableEq

/-- `ExecutableHeader.__bytes__`: `struct.pack("<?I", harvard, entry_point)` —
five bytes; the segment table (in particular `n_segments`) is *not* part of
the serialized header. -/
def ExecutableHeader.toBytes (h : ExecutableHeader) : Except PyErr (List Nat) := do
  let ep ← packU32 (h.entryPoint : Int)
  .ok ((if h.harvard then 1 else 0) :: ep)

/-- `ExecutableHeader.from_bytes`: unpack `"<?I"` from the first five bytes,
then parse the segment table at offset 5. -/
def ExecutableHeader.fromBytes (bytes' : List Nat) : Except PyErr ExecutableHeader := do
  match bytes' with
  | b0 :: b1 :: b2 :: b3 :: b4 :: _ => do
    let table ← SegmentTable.fromBytes bytes' 5
    .ok { harvard := b0 != 0
          entryPoint := b1 + b2 * 256 + b3 * 65536 + b4 * 16777216
          segmentTable := table }
  | _ => .error .structError

/-- `ExecutableFile.empty(harvard)`: the five serialized header bytes of an
empty-table header. -/
def ExecutableFile.emptyBytes (harvard : Bool) : Except PyErr (List Nat) :=
  ExecutableHeader.toBytes { harvard := harvard, entryPoint := 0
                             segmentTable := { nSegments := 0, entries := [] } }

/-- `ExecutableFile.append_segment` on the growable-buffer variant: append
the packed table entry followed by the segment's own packed bytes, re-parse
the header, increment `n_segments` on the parsed copy, and write the
five-byte serialized header back over the first `len(header) = 5` bytes. -/
def ExecutableFile.appendSegment (data : List Nat) (segment : PlacedBinary) :
    Except PyErr (List Nat) := do
  let entry := SegmentTableEntry.forSegment segment
  let entryBytes ← entry.toBytes
  let d := data ++ entryBytes ++ segment.data.toBytes
  let header ← ExecutableHeader.fromBytes d
  let header := { header with segmentTable :=
    { header.segmentTable with nSegments := header.segmentTable.nSegments + 1 } }
  let hb ← header.toBytes
  .ok (hb ++ d.drop 5)

/-- The loop body of `ExecutableFile.segments`: materialize one
`PlacedBinary` per table entry, advancing the running offset. -/
def ExecutableFile.segmentsLoop (data : List Nat) :
    Nat → List SegmentTableEntry → List PlacedBinary
  | _, [] => []
  | offset, e :: rest =>
    PlacedBinary.fromBytes ((data.drop offset).take e.segmentDiskSize)
        e.size e.vsize e.start e.flags e.byteSize ::
      ExecutableFile.segmentsLoop data (offset + e.size) rest

/-- `ExecutableFile.segments`: parse the header and materialize every table
entry, starting after the `len(header) = 5` header bytes. -/
def ExecutableFile.segments (data : List Nat) : Except PyErr (List PlacedBinary) := do
  let header ← ExecutableHeader.fromBytes data
  .ok (ExecutableFile.segmentsLoop data 5 header.segmentTable.entries)

/-! ## Helper lemmas -/

theorem exceptBind_ok {ε α β : Type} (x : α) (f : α → Except ε β) :
    (Except.ok x >>= f) = f x := rfl

theorem exceptBind_error {ε α β : Type} (e : ε) (f : α → Except ε β) :
    ((Except.error e : Except ε α) >>= f) = .error e := rfl

theorem ByteArray.byte_of_set {a a' : ByteArray} {i v : Nat} (h : a.set i v = .ok a') :
    a'.byte = a.byte := by
  unfold ByteArray.set at h
  split at h
  · exact Except.noConfusion h
  · split at h
    · cases h; rfl
    · exact Except.noConfusion h

theorem ByteArray.byte_of_append {a a' : ByteArray} {v : Nat} (h : a.append v = .ok a') :
    a'.byte = a.byte := by
  unfold ByteArray.append at h
  dsimp only at h
  split at h <;> exact (ByteArray.byte_of_set h).trans rfl

theorem ByteArray.byte_of_extendList {vs : List Nat} :
    ∀ {a a' : ByteArray}, a.extendList vs = .ok a' → a'.byte = a.byte := by
  induction vs with
  | nil =>
    intro a a' h
    rw [ByteArray.extendList, List.foldlM_nil] at h
    cases h; rfl
  | cons v t ih =>
    intro a a' h
    rw [ByteArray.extendList, List.foldlM_cons] at h
    cases happ : a.append v with
    | error e => rw [happ, exceptBind_error] at h; exact Except.noConfusion h
    | ok a1 =>
      rw [happ, exceptBind_ok] at h
      have h1 : a1.extendList t = .ok a' := h
      rw [ih h1, ByteArray.byte_of_append happ]

theorem PlacedBinary.byte_of_extendPadded {self other s1 : PlacedBinary}
    {me : Option Int} (h : self.extendPadded other me = .ok s1) :
    s1.data.byte = self.data.byte := by
  unfold PlacedBinary.extendPadded at h
  split at h
  · split at h
    · split at h
      · exact Except.noConfusion h
      · split at h
        · exact Except.noConfusion h
        · cases h
          next hd => exact ByteArray.byte_of_extendList hd
    · split at h
      · exact Except.noConfusion h
      · cases h
        next hd => exact ByteArray.byte_of_extendList hd
  · cases h; rfl

theorem le_8ceil8 (n : Nat) : n ≤ 8 * ceil8 n := by unfold ceil8; omega

theorem ceil8_8mul (n : Nat) : ceil8 (8 * n) = n := by unfold ceil8; omega

theorem mul8_ceil8_le {t len : Nat} (h : t ≤ len) (h8 : len % 8 = 0) :
    8 * ceil8 t ≤ len := by unfold ceil8; omega

theorem length_natToBits (w v : Nat) : (natToBits w v).length = w := by
  induction w generalizing v with
  | zero => rfl
  | succ w ih => simp [natToBits, ih]

theorem bitsToNat_lt (bs : List Bool) : bitsToNat bs < 2 ^ bs.length := by
  induction bs with
  | nil => simp [bitsToNat]
  | cons b t ih =>
    simp only [bitsToNat, List.length_cons, pow_succ]
    cases b <;> simp only [Bool.toNat_false, Bool.toNat_true] <;> omega

theorem bitsToNat_natToBits (w v : Nat) : bitsToNat (natToBits w v) = v % 2 ^ w := by
  induction w generalizing v with
  | zero => simp [natToBits, bitsToNat, Nat.mod_one]
  | succ w ih =>
    simp only [natToBits, bitsToNat, length_natToBits, ih]
    rw [pow_succ, Nat.mod_mul]
    have ht : (v.testBit w).toNat = v / 2 ^ w % 2 := by
      rw [Nat.testBit_to_div_mod]
      rcases Nat.mod_two_eq_zero_or_one (v / 2 ^ w) with h | h <;> simp [h]
    rw [ht]; ring

theorem natToBits_add_mul_pow (w v k : Nat) : natToBits w (v + k * 2 ^ w) = natToBits w v := by
  induction w generalizing v k with
  | zero => rfl
  | succ w ih =>
    simp only [natToBits]
    have h1 : (v + k * 2 ^ (w + 1)).testBit w = v.testBit w := by
      rw [Nat.testBit_to_div_mod, Nat.testBit_to_div_mod]
      have e1 : v + k * 2 ^ (w + 1) = v + 2 ^ w * (2 * k) := by ring
      rw [e1, Nat.add_mul_div_left _ _ (by positivity : (0 : ℕ) < 2 ^ w)]
      have e2 : (v / 2 ^ w + 2 * k) % 2 = v / 2 ^ w % 2 := by omega
      rw [e2]
    have h2 : natToBits w (v + k * 2 ^ (w + 1)) = natToBits w v := by
      have e3 : v + k * 2 ^ (w + 1) = v + 2 * k * 2 ^ w := by ring
      rw [e3, ih]
    rw [h1, h2]

theorem natToBits_bitsToNat (bs : List Bool) : natToBits bs.length (bitsToNat bs) = bs := by
  induction bs with
  | nil => rfl
  | cons b t ih =>
    simp only [List.length_cons, bitsToNat, natToBits]
    have hlt := bitsToNat_lt t
    have h1 : (b.toNat * 2 ^ t.length + bitsToNat t).testBit t.length = b := by
      rw [Nat.testBit_to_div_mod]
      have hdiv : (b.toNat * 2 ^ t.length + bitsToNat t) / 2 ^ t.length = b.toNat := by
        rw [Nat.add_comm, Nat.mul_comm,
          Nat.add_mul_div_left _ _ (by positivity : (0 : ℕ) < 2 ^ t.length),
          Nat.div_eq_of_lt hlt, Nat.zero_add]
      rw [hdiv]
      cases b <;> simp
    have h2 : natToBits t.length (b.toNat * 2 ^ t.length + bitsToNat t) =
        natToBits t.length (bitsToNat t) := by
      rw [Nat.add_comm, natToBits_add_mul_pow]
    rw [h1, h2, ih]

theorem length_bitsToBytes_mod8 (l : List Bool) (hl : l.length % 8 = 0) :
    (bitsToBytes l).length = ceil8 l.length := by
  suffices h : ∀ n (l : List Bool), l.length = n → n % 8 = 0 →
      (bitsToBytes l).length = ceil8 n by exact h _ l rfl hl
  intro n
  induction n using Nat.strong_induction_on with
  | _ n ih =>
    intro l hlen hmod
    rcases l with _ | ⟨b0, _ | ⟨b1, _ | ⟨b2, _ | ⟨b3, _ | ⟨b4, _ | ⟨b5, _ | ⟨b6, _ | ⟨b7, rest⟩⟩⟩⟩⟩⟩⟩⟩ <;>
      simp only [List.length_nil, List.length_cons] at hlen <;> (try omega) <;> subst hlen
    · rfl
    · rw [bitsToBytes]
      have hrl := ih rest.length (by omega) rest rfl (by omega)
      simp only [List.length_cons, hrl]
      unfold ceil8
      omega

theorem bytesToBits_bitsToBytes (l : List Bool) (hl : l.length % 8 = 0) :
    bytesToBits (bitsToBytes l) = l := by
  suffices h : ∀ n (l : List Bool), l.length = n → n % 8 = 0 →
      bytesToBits (bitsToBytes l) = l by exact h _ l rfl hl
  intro n
  induction n using Nat.strong_induction_on with
  | _ n ih =>
    intro l hlen hmod
    rcases l with _ | ⟨b0, _ | ⟨b1, _ | ⟨b2, _ | ⟨b3, _ | ⟨b4, _ | ⟨b5, _ | ⟨b6, _ | ⟨b7, rest⟩⟩⟩⟩⟩⟩⟩⟩ <;>
      simp only [List.length_nil, List.length_cons] at hlen <;> (try omega) <;> subst hlen
    · rfl
    · rw [bitsToBytes]
      have hrl := ih rest.length (by omega) rest rfl (by omega)
      show natToBits 8 (bitsToNat [b0, b1, b2, b3, b4, b5, b6, b7]) ++
        bytesToBits (bitsToBytes rest) = _
      rw [hrl]
      have h8 := natToBits_bitsToNat [b0, b1, b2, b3, b4, b5, b6, b7]
      simp only [List.length_cons, List.length_nil] at h8
      rw [h8]
      rfl

theorem take_drop_take {α : Type} (l : List α) (T j k : Nat) (h : j + k ≤ T) :
    ((l.take T).drop j).take k = (l.drop j).take k := by
  rw [List.take_drop, List.take_drop]
  congr 1
  rw [List.take_take]
  congr 1
  exact inf_eq_left.mpr h

theorem read_append_before {α : Type} (l m : List α) (j k : Nat) (h : j + k ≤ l.length) :
    ((l ++ m).drop j).take k = (l.drop j).take k := by
  rw [List.take_drop, List.take_drop]
  congr 1
  exact List.take_append_of_le_length h

theorem length_take_of_le {α : Type} {o : Nat} {d : List α} (h : o ≤ d.length) :
    (d.take o).length = o := by
  rw [List.length_take]
  exact inf_eq_left.mpr h

theorem length_splice {α : Type} (d mid : List α) (o w : Nat) (hmid : mid.length = w)
    (h : o + w ≤ d.length) :
    (d.take o ++ mid ++ d.drop (o + w)).length = d.length := by
  rw [List.length_append, List.length_append, List.length_drop, hmid,
    length_take_of_le (by omega : o ≤ d.length)]
  omega

theorem read_splice_at {α : Type} (d mid : List α) (o w : Nat) (hmid : mid.length = w)
    (h : o + w ≤ d.length) :
    ((d.take o ++ mid ++ d.drop (o + w)).drop o).take w = mid := by
  rw [List.append_assoc, List.drop_left' (length_take_of_le (by omega : o ≤ d.length))]
  exact List.take_left' hmid

theorem read_splice_before {α : Type} (d mid : List α) (o w j k : Nat) (_hmid : mid.length = w)
    (_h : o + w ≤ d.length) (hjk : j + k ≤ o) :
    ((d.take o ++ mid ++ d.drop (o + w)).drop j).take k = (d.drop j).take k := by
  rw [List.take_drop, List.take_drop]
  congr 1
  rw [List.append_assoc]
  have hle : j + k ≤ (d.take o).length ∨ o > d.length := by
    rcases Nat.le_total o d.length with ho | ho
    · exact Or.inl (by rw [length_take_of_le ho]; exact hjk)
    · rcases Nat.lt_or_ge d.length o with ho2 | ho2
      · exact Or.inr ho2
      · exact Or.inl (by rw [length_take_of_le ho2]; exact hjk)
  rcases hle with hle | hgt
  · rw [List.take_append_of_le_length hle, List.take_take]
    congr 1
    exact inf_eq_left.mpr hjk
  · omega

theorem ByteArray.WF_mkNew (w c : Nat) : (ByteArray.mkNew w c).WF := by
  refine ⟨Nat.zero_le _, ?_, ?_⟩
  · simp only [ByteArray.mkNew, List.length_replicate]
    exact le_8ceil8 _
  · simp only [ByteArray.mkNew, List.length_replicate]
    omega

theorem ByteArray.set_spliced (a : ByteArray) (i v : Nat) (hi : i < a.length)
    (hfit : i * a.byte + a.byte ≤ a.data.length) (hv : v < 2 ^ a.byte) :
    a.set i v = .ok ⟨a.byte,
      a.data.take (i * a.byte) ++ natToBits a.byte v ++ a.data.drop (i * a.byte + a.byte),
      a.length, a.capacity⟩ := by
  unfold ByteArray.set bitstructPackInto
  rw [if_neg (by omega), if_pos ⟨hfit, hv⟩]

theorem ByteArray.get_ok (a : ByteArray) (i : Nat) (hi : i < a.length)
    (hfit : i * a.byte + a.byte ≤ a.data.length) :
    a.get i = .ok (bitsToNat (a.elemBits i)) := by
  unfold ByteArray.get bitstructUnpackFrom
  rw [if_neg (by omega), if_pos hfit]
  rfl

theorem ByteArray.append_case (a : ByteArray) (v : Nat) (d1 : List Bool) (c2 : Nat)
    (hv : v < 2 ^ a.byte)
    (hgrow : a.append v =
      ByteArray.set { a with data := d1, length := a.length + 1, capacity := c2 } a.length v)
    (hfit : a.length * a.byte + a.byte ≤ d1.length)
    (hpre : ∀ i, i < a.length → (d1.drop (i * a.byte)).take a.byte = a.elemBits i)
    (hlen8 : d1.length % 8 = 0) (hcap : a.length + 1 ≤ c2) (hcapfit : c2 * a.byte ≤ d1.length) :
    ∃ a', a.append v = .ok a' ∧ a'.byte = a.byte ∧ a'.length = a.length + 1 ∧ a'.WF ∧
      (∀ i, i < a.length → a'.elemBits i = a.elemBits i) ∧
      a'.elemBits a.length = natToBits a.byte v := by
  have hmid : (natToBits a.byte v).length = a.byte := length_natToBits _ _
  have hset := ByteArray.set_spliced
    { a with data := d1, length := a.length + 1, capacity := c2 }
    a.length v (by simp) (by simpa using hfit) (by simpa using hv)
  dsimp only at hset
  rw [hset] at hgrow
  have hsplen : (d1.take (a.length * a.byte) ++ natToBits a.byte v ++
      d1.drop (a.length * a.byte + a.byte)).length = d1.length :=
    length_splice d1 _ _ _ hmid hfit
  refine ⟨_, hgrow, rfl, rfl, ⟨by simpa using hcap, ?_, ?_⟩, ?_, ?_⟩
  · show c2 * a.byte ≤ _
    rw [hsplen]
    exact hcapfit
  · show _ % 8 = 0
    rw [hsplen]
    exact hlen8
  · intro i hilt
    show ((d1.take (a.length * a.byte) ++ natToBits a.byte v ++
      d1.drop (a.length * a.byte + a.byte)).drop (i * a.byte)).take a.byte = a.elemBits i
    rw [read_splice_before d1 _ _ _ _ _ hmid hfit
      (by
        have : (i + 1) * a.byte ≤ a.length * a.byte :=
          Nat.mul_le_mul_right _ (by omega)
        calc i * a.byte + a.byte = (i + 1) * a.byte := by ring
        _ ≤ a.length * a.byte := this)]
    exact hpre i hilt
  · show ((d1.take (a.length * a.byte) ++ natToBits a.byte v ++
      d1.drop (a.length * a.byte + a.byte)).drop (a.length * a.byte)).take a.byte =
      natToBits a.byte v
    exact read_splice_at d1 _ _ _ hmid hfit

theorem ByteArray.append_ok (a : ByteArray) (v : Nat) (hWF : a.WF) (hv : v < 2 ^ a.byte) :
    ∃ a', a.append v = .ok a' ∧ a'.byte = a.byte ∧ a'.length = a.length + 1 ∧ a'.WF ∧
      (∀ i, i < a.length → a'.elemBits i = a.elemBits i) ∧
      a'.elemBits a.length = natToBits a.byte v := by
  obtain ⟨hlc, hcd, hm8⟩ := hWF
  by_cases hg : a.length + 1 ≥ a.capacity
  · refine ByteArray.append_case a v
      (a.data ++ List.replicate
        (8 * ceil8 ((if a.capacity = 0 then 1 else a.capacity) * 2 * a.byte)) false)
      ((if a.capacity = 0 then 1 else a.capacity) * 2)
      hv ?_ ?_ ?_ ?_ ?_ ?_
    · unfold ByteArray.append
      dsimp only
      rw [if_pos hg]
      simp only [Nat.add_sub_cancel]
    · rw [List.length_append, List.length_replicate]
      have h1 : (a.length + 1) * a.byte ≤ (if a.capacity = 0 then 1 else a.capacity) * 2 * a.byte :=
        Nat.mul_le_mul_right _ (by split <;> omega)
      have h2 := le_8ceil8 ((if a.capacity = 0 then 1 else a.capacity) * 2 * a.byte)
      have h3 : a.length * a.byte + a.byte = (a.length + 1) * a.byte := by ring
      omega
    · intro i hilt
      show ((a.data ++ _).drop (i * a.byte)).take a.byte = a.elemBits i
      rw [read_append_before _ _ _ _
        (by
          have h1 : (i + 1) * a.byte ≤ a.capacity * a.byte :=
            Nat.mul_le_mul_right _ (by omega)
          have h3 : i * a.byte + a.byte = (i + 1) * a.byte := by ring
          omega)]
      rfl
    · rw [List.length_append, List.length_replicate]
      omega
    · split <;> omega
    · rw [List.length_append, List.length_replicate]
      have h2 := le_8ceil8 ((if a.capacity = 0 then 1 else a.capacity) * 2 * a.byte)
      omega
  · refine ByteArray.append_case a v a.data a.capacity hv ?_ ?_ (fun i _ => rfl) hm8
      (by omega) hcd
    · unfold ByteArray.append
      dsimp only
      rw [if_neg hg]
      simp only [Nat.add_sub_cancel]
    · have h1 : (a.length + 1) * a.byte ≤ a.capacity * a.byte :=
        Nat.mul_le_mul_right _ (by omega)
      have h3 : a.length * a.byte + a.byte = (a.length + 1) * a.byte := by ring
      omega

theorem ByteArray.extendList_ok (vs : List Nat) :
    ∀ (a : ByteArray), a.WF → (∀ v ∈ vs, v < 2 ^ a.byte) →
    ∃ a', a.extendList vs = .ok a' ∧ a'.byte = a.byte ∧ a'.length = a.length + vs.length ∧
      a'.WF ∧ (∀ i, i < a.length → a'.elemBits i = a.elemBits i) ∧
      (∀ k (hk : k < vs.length),
        a'.elemBits (a.length + k) = natToBits a.byte (vs.get ⟨k, hk⟩)) := by
  induction vs with
  | nil =>
    intro a hWF _
    refine ⟨a, ?_, rfl, (Nat.add_zero _).symm, hWF, fun i _ => rfl,
      fun k hk => absurd hk (by simp)⟩
    rw [ByteArray.extendList, List.foldlM_nil]
    rfl
  | cons v t ih =>
    intro a hWF hvs
    obtain ⟨a1, happ, hb1, hl1, hWF1, hpre1, hnew1⟩ :=
      ByteArray.append_ok a v hWF (hvs v (List.mem_cons_self _ _))
    obtain ⟨a2, hext, hb2, hl2, hWF2, hpre2, hnew2⟩ :=
      ih a1 hWF1 (fun u hu => by rw [hb1]; exact hvs u (List.mem_cons_of_mem _ hu))
    refine ⟨a2, ?_, by rw [hb2, hb1], by rw [hl2, hl1]; simp [List.length_cons]; omega,
      hWF2, ?_, ?_⟩
    · rw [ByteArray.extendList, List.foldlM_cons, happ, exceptBind_ok]
      exact hext
    · intro i hi
      rw [hpre2 i (by omega), hpre1 i hi]
    · intro k hk
      cases k with
      | zero =>
        rw [Nat.add_zero]
        have h1 : a2.elemBits a.length = a1.elemBits a.length := hpre2 a.length (by omega)
        rw [h1, hnew1]
        rfl
      | succ k' =>
        have he : a.length + (k' + 1) = a1.length + k' := by omega
        have hk' : k' < t.length := by
          simp only [List.length_cons] at hk
          omega
        rw [he, hnew2 k' hk', hb1]
        rfl

theorem ByteArray.fromBytes_toBytes (a : ByteArray) (hWF : a.WF) :
    (a.fromBytes a.toBytes a.length).data = a.data.take (8 * ceil8 (a.length * a.byte)) ∧
    a.toBytes.length = ceil8 (a.length * a.byte) := by
  obtain ⟨hlc, hcd, hm8⟩ := hWF
  have hLw : a.length * a.byte ≤ a.data.length :=
    le_trans (Nat.mul_le_mul_right _ hlc) hcd
  have hT : 8 * ceil8 (a.length * a.byte) ≤ a.data.length := mul8_ceil8_le hLw hm8
  have htl : (a.data.take (8 * ceil8 (a.length * a.byte))).length =
      8 * ceil8 (a.length * a.byte) := length_take_of_le hT
  constructor
  · show bytesToBits (bitsToBytes (a.data.take _)) = _
    exact bytesToBits_bitsToBytes _ (by rw [htl]; omega)
  · show (bitsToBytes (a.data.take _)).length = _
    rw [length_bitsToBytes_mod8 _ (by rw [htl]; omega), htl, ceil8_8mul]

theorem mapM_range_ok {g : Nat → Except PyErr Nat} {f : Nat → Nat} :
    ∀ n, (∀ i, i < n → g i = .ok (f i)) →
      (List.range n).mapM g = .ok ((List.range n).map f) := by
  intro n
  induction n with
  | zero => intro _; rfl
  | succ n ih =>
    intro h
    rw [List.range_succ, List.mapM_append, ih (fun i hi => h i (by omega)), exceptBind_ok]
    have h1 : ([n] : List Nat).mapM g = .ok [f n] := by
      rw [List.mapM_cons, h n (by omega), exceptBind_ok, List.mapM_nil]
      rfl
    rw [h1, exceptBind_ok, List.map_append]
    rfl

/-! ## Theorems about the claims -/

/-- C4: for every unit width in `{1, 4, 6, 7, 8, 12, 16}` and every value
sequence fitting the width, building a `ByteArray` by appending the
sequence and round-tripping its bytes with `from_bytes(to_bytes(), len)`
reproduces the original sequence exactly under both indexing and
iteration, and `to_bytes` has exactly `ceil(len * w / 8)` bytes. -/
theorem c4_bitbytearray_roundtrip (w : Nat)
    (_hw : w ∈ ([1, 4, 6, 7, 8, 12, 16] : List Nat))
    (vs : List Nat) (hvs : ∀ v ∈ vs, v < 2 ^ w) :
    ∃ a, (ByteArray.mkNew w 0).extendList vs = .ok a ∧ a.length = vs.length ∧
      a.toBytes.length = ceil8 (vs.length * w) ∧
      (∀ k (hk : k < vs.length),
        (a.fromBytes a.toBytes a.length).get k = .ok (vs.get ⟨k, hk⟩)) ∧
      (a.fromBytes a.toBytes a.length).toListM = .ok vs := by
  obtain ⟨a, hext, hb, hl, hWF, _, hnew⟩ :=
    ByteArray.extendList_ok vs (ByteArray.mkNew w 0) (ByteArray.WF_mkNew w 0)
      (by simpa [ByteArray.mkNew] using hvs)
  have hbyte : a.byte = w := hb
  have hlen : a.length = vs.length := by simpa [ByteArray.mkNew] using hl
  obtain ⟨hdata, htb⟩ := ByteArray.fromBytes_toBytes a hWF
  obtain ⟨hlc, hcd, hm8⟩ := hWF
  have hLw : a.length * a.byte ≤ a.data.length :=
    le_trans (Nat.mul_le_mul_right _ hlc) hcd
  have hT : 8 * ceil8 (a.length * a.byte) ≤ a.data.length := mul8_ceil8_le hLw hm8
  have hidx : ∀ k (hk : k < vs.length),
      (a.fromBytes a.toBytes a.length).get k = .ok (vs.get ⟨k, hk⟩) := by
    intro k hk
    have hk' : k < a.length := by omega
    have hk1w : (k + 1) * a.byte ≤ a.length * a.byte :=
      Nat.mul_le_mul_right _ (by omega)
    have hkw : k * a.byte + a.byte = (k + 1) * a.byte := by ring
    have hblen : (a.fromBytes a.toBytes a.length).data.length =
        8 * ceil8 (a.length * a.byte) := by
      rw [hdata]
      exact length_take_of_le hT
    have hbyteeq : (a.fromBytes a.toBytes a.length).byte = a.byte := rfl
    have hfitb : k * (a.fromBytes a.toBytes a.length).byte +
        (a.fromBytes a.toBytes a.length).byte ≤
        (a.fromBytes a.toBytes a.length).data.length := by
      rw [hbyteeq, hblen]
      have h8 := le_8ceil8 (a.length * a.byte)
      omega
    rw [ByteArray.get_ok _ k (by exact hk') hfitb]
    have helem : (a.fromBytes a.toBytes a.length).elemBits k = a.elemBits k := by
      show ((a.fromBytes a.toBytes a.length).data.drop
        (k * (a.fromBytes a.toBytes a.length).byte)).take
          (a.fromBytes a.toBytes a.length).byte = _
      rw [hbyteeq, hdata,
        take_drop_take a.data (8 * ceil8 (a.length * a.byte)) (k * a.byte) a.byte
          (by have h8 := le_8ceil8 (a.length * a.byte); omega)]
      rfl
    have hget := hnew k (by omega)
    rw [show (ByteArray.mkNew w 0).length + k = k by simp [ByteArray.mkNew]] at hget
    rw [helem, hget]
    show Except.ok (bitsToNat (natToBits w (vs.get _))) = _
    rw [bitsToNat_natToBits,
      Nat.mod_eq_of_lt (hvs _ (List.get_mem _ _ _))]
  refine ⟨a, hext, hlen, by rw [htb, hlen, hbyte], hidx, ?_⟩
  show (List.range (a.fromBytes a.toBytes a.length).length).mapM
    (a.fromBytes a.toBytes a.length).get = .ok vs
  have hbl2 : (a.fromBytes a.toBytes a.length).length = vs.length := hlen
  rw [hbl2,
    mapM_range_ok (f := fun i => if h : i < vs.length then vs.get ⟨i, h⟩ else 0)
      vs.length
      (fun i hi => by rw [hidx i hi]; simp [hi])]
  congr 1
  apply List.ext_getElem
  · simp
  · intro i h1 h2
    simp only [List.getElem_map, List.getElem_range]
    rw [dif_pos (by simpa using h1)]
    exact List.get_eq_getElem _ _

/-- C4 witness: width 4 with the sequence `[3, 0, 15]`. -/
theorem c4_bitbytearray_roundtrip_witness :
    (4 ∈ ([1, 4, 6, 7, 8, 12, 16] : List Nat)) ∧
    (∀ v ∈ ([3, 0, 15] : List Nat), v < 2 ^ 4) ∧
    (∃ a, (ByteArray.mkNew 4 0).extendList [3, 0, 15] = .ok a ∧
      a.length = ([3, 0, 15] : List Nat).length ∧
      a.toBytes.length = ceil8 (([3, 0, 15] : List Nat).length * 4) ∧
      (∀ k (hk : k < ([3, 0, 15] : List Nat).length),
        (a.fromBytes a.toBytes a.length).get k =
          .ok (([3, 0, 15] : List Nat).get ⟨k, hk⟩)) ∧
      (a.fromBytes a.toBytes a.length).toListM = .ok [3, 0, 15]) :=
  ⟨by decide, by decide, c4_bitbytearray_roundtrip 4 (by decide) [3, 0, 15] (by decide)⟩

/-- C9: indexing a `ByteArray` at or past its logical length fails with
`IndexError` for both reads and writes (no modified state is produced),
and a successful read depends only on the backing bits below the logical
length — it never reads uninitialized backing bytes beyond it. -/
theorem c9_bytearray_bounds (a : ByteArray) (i v : Nat) (h : a.length ≤ i) :
    a.get i = .error .indexError ∧ a.set i v = .error .indexError ∧
    (∀ (a' : ByteArray) (j u : Nat), a.get j = .ok u → a'.byte = a.byte →
      a'.length = a.length →
      a'.data.take (a.length * a.byte) = a.data.take (a.length * a.byte) →
      a'.get j = .ok u) := by
  refine ⟨?_, ?_, ?_⟩
  · unfold ByteArray.get
    rw [if_pos h]
  · unfold ByteArray.set
    rw [if_pos h]
  · intro a' j u hget hb hl hd
    unfold ByteArray.get bitstructUnpackFrom at hget ⊢
    by_cases hj : j ≥ a.length
    · rw [if_pos hj] at hget
      exact Except.noConfusion hget
    · rw [if_neg hj] at hget
      rw [if_neg (by rw [hl]; exact hj)]
      by_cases hfit : j * a.byte + a.byte ≤ a.data.length
      · rw [if_pos hfit] at hget
        have hjw : j * a.byte + a.byte ≤ a.length * a.byte := by
          have h1 := Nat.mul_le_mul_right a.byte (show j + 1 ≤ a.length by omega)
          have h2 : j * a.byte + a.byte = (j + 1) * a.byte := by ring
          omega
        have hmineq : min (a.length * a.byte) a'.data.length =
            min (a.length * a.byte) a.data.length := by
          have h1 := congrArg List.length hd
          rw [List.length_take, List.length_take] at h1
          exact h1
        have hfit' : j * a'.byte + a'.byte ≤ a'.data.length := by
          rw [hb]
          omega
        rw [if_pos hfit']
        have hslice : (a'.data.drop (j * a'.byte)).take a'.byte =
            (a.data.drop (j * a.byte)).take a.byte := by
          rw [hb, ← take_drop_take a'.data (a.length * a.byte) (j * a.byte) a.byte hjw,
            ← take_drop_take a.data (a.length * a.byte) (j * a.byte) a.byte hjw, hd]
        rw [hslice]
        exact hget
      · rw [if_neg hfit] at hget
        exact Except.noConfusion hget

/-- C9 witness: the freshly constructed width-8 array has length 0, so
index 0 is out of range. -/
theorem c9_bytearray_bounds_witness :
    (ByteArray.mkNew 8 0).length ≤ 0 ∧
    ((ByteArray.mkNew 8 0).get 0 = .error .indexError ∧
      (ByteArray.mkNew 8 0).set 0 5 = .error .indexError ∧
      (∀ (a' : ByteArray) (j u : Nat), (ByteArray.mkNew 8 0).get j = .ok u →
        a'.byte = (ByteArray.mkNew 8 0).byte →
        a'.length = (ByteArray.mkNew 8 0).length →
        a'.data.take ((ByteArray.mkNew 8 0).length * (ByteArray.mkNew 8 0).byte) =
          (ByteArray.mkNew 8 0).data.take
            ((ByteArray.mkNew 8 0).length * (ByteArray.mkNew 8 0).byte) →
        a'.get j = .ok u)) :=
  ⟨by decide, c9_bytearray_bounds (ByteArray.mkNew 8 0) 0 5 (by decide)⟩

/-- C10: every combination of the five flag booleans serializes to exactly
one byte, and `Flags.from_bytes` inverts `bytes(flags)`. -/
theorem c10_flags_roundtrip (e w r s st : Bool) :
    (Flags.toBytesList ⟨e, w, r, s, st⟩).length = 1 ∧
    Flags.fromBytes (Flags.toBytesList ⟨e, w, r, s, st⟩) = .ok ⟨e, w, r, s, st⟩ := by
  cases e <;> cases w <;> cases r <;> cases s <;> cases st <;> exact ⟨rfl, rfl⟩

/-- C7: `add_symbol`, `add_relocation` and `merge` on a `SymbolTable` or a
`RelocationTable` fail unconditionally with `NotImplementedError`, for every
argument; no modified table is ever produced. -/
theorem c7_table_mutators_always_fail (st st2 : SymbolTable) (rt rt2 : RelocationTable)
    (s : Symbol) (r : SymbolRelocation) :
    st.addSymbol s = .error .notImplementedError ∧
    st.addRelocation r = .error .notImplementedError ∧
    st.mergeTable st2 = .error .notImplementedError ∧
    rt.addSymbol s = .error .notImplementedError ∧
    rt.addRelocation r = .error .notImplementedError ∧
    rt.mergeTable rt2 = .error .notImplementedError :=
  ⟨rfl, rfl, rfl, rfl, rfl, rfl⟩

/-- C5 (counter-evidence): appending a second symbol named `"main"` to a
symbol table that already holds a symbol named `"main"` does *not* fail:
the duplicate check tests the `str` name against the `bytes` keys of the
name pool, which never match, so both symbols are stored. -/
theorem c5_duplicate_symbol_append_succeeds :
    (SymbolTable.mkNew.append ⟨⟨"text", 0⟩, "main"⟩).bind
        (fun t => t.append ⟨⟨"text", 5⟩, "main"⟩) =
      .ok { symbols := [⟨⟨"text", 0⟩, "main"⟩, ⟨⟨"text", 5⟩, "main"⟩]
            names := [(.pybytes "main", 0)] } := rfl

/-- C1 (counter-evidence): merging the one-byte text section `[0x01]` with
symbol `"main"` at offset 0 and the one-byte text section `[0x02]` with
symbol `"helper"` at offset 0 concatenates the bytes, but places
`"helper"` at offset 2 — the post-merge length — not at offset 1 as the
pre-merge-length translation would give. -/
theorem c1_merge_translates_by_post_merge_length :
    (do
      let a ← (Text.mkNew 8).addByte 1
      let a := a.addSymbol ⟨⟨"text", 0⟩, "main"⟩
      let b ← (Text.mkNew 8).addByte 2
      let b := b.addSymbol ⟨⟨"text", 0⟩, "helper"⟩
      let m ← a.merge b
      pure (m.data.toBytes, m.symbols) : Except PyErr (List Nat × List Symbol)) =
    .ok ([1, 2], [⟨⟨"text", 0⟩, "main"⟩, ⟨⟨"text", 2⟩, "helper"⟩]) := rfl

/-- C6 (counter-evidence): serializing a manager whose section list holds a
(stale) `RelocationTable` section emits that table as an ordinary section —
the `to_bytes` loop skips only `SymbolTable` instances — so the emitted
section table contains *two* relocation-table sections (type code 4), not
exactly one. -/
theorem c6_stale_relocation_table_reserialized :
    (ObjectManager.toBytesCore ⟨⟨1, 8, 8, 0, 0⟩, [.relocationTable RelocationTable.mkNew]⟩).map
        (fun acc => acc.sectionsTable.map SectionTableEntry.sectionType) =
      .ok [4, 3, 4] := rfl

/-- C2 (counter-evidence): `to_bytes` on a manager whose single text section
carries one symbol and one relocation raises `AttributeError`: serializing
the freshly built relocation table reads `relocation.size`, an attribute
the four-field `SymbolRelocation` dataclass does not have.  The round trip
therefore cannot even produce bytes. -/
theorem c2_to_bytes_fails_with_relocations :
    (do
      let t ← (Text.mkNew 8).addByte 1
      let t := t.addSymbol ⟨⟨"text", 0⟩, "main"⟩
      let t := t.addRelocation ⟨⟨"text", 0⟩, ⟨"helper", "text"⟩, 0, false⟩
      ObjectManager.toBytes ⟨⟨1, 8, 8, 0, 0⟩, [.text t]⟩) = .error .attributeError := rfl

/-- C3 (counter-evidence): starting from the empty executable and appending
one one-byte segment at offset 0, the stored header still decodes
`n_segments = 0` (the write-back serializes only `harvard` and
`entry_point`, so the increment is lost) and `segments()` returns the empty
list instead of reproducing the appended segment. -/
theorem c3_append_segment_never_persists_count :
    (do
      let arr ← (ByteArray.mkNew 8 0).extendList [1]
      let seg : PlacedBinary := ⟨arr, 0, 1, ⟨false, false, true, false, false⟩⟩
      let e ← ExecutableFile.emptyBytes true
      let d ← ExecutableFile.appendSegment e seg
      let segs ← ExecutableFile.segments d
      let header ← ExecutableHeader.fromBytes d
      pure (segs, header.segmentTable.nSegments) :
        Except PyErr (List PlacedBinary × Nat)) = .ok ([], 0) := rfl

set_option maxRecDepth 4000 in
/-- C8: `PlacedBinary.extend` fails whenever the unit widths differ, fails
with `ValueError` whenever the positive gap up to `other.offset` exceeds the
caller-supplied `max_extend`, succeeds on the byte-width-8 pair at offsets
0 and 4 (producing a single 8-unit binary with the concatenated payload and
no padding), and fails on the same pair with the second binary at offset 10
under `max_extend = 2`. -/
theorem c8_extend_failure_semantics (self other self2 other2 : PlacedBinary) (m : Int)
    (hbyte : self.data.byte ≠ other.data.byte)
    (hgap1 : (self2.data.length : Int) < other2.offset - self2.offset)
    (hgap2 : other2.offset - self2.offset - (self2.data.length : Int) > m) :
    (∀ me r, self.extend other me ≠ .ok r) ∧
    self2.extend other2 (some m) = .error .valueError ∧
    (do
      let c ← (PlacedBinary.fromBytes [1, 2, 3, 4] 4 4 0 ⟨false, false, true, false, false⟩ 8).extend
        (PlacedBinary.fromBytes [5, 6, 7, 8] 4 4 4 ⟨false, false, true, false, false⟩ 8) none
      pure (c.data.length, c.data.toBytes, c.offset) : Except PyErr (Nat × List Nat × Int)) =
      .ok (8, [1, 2, 3, 4, 5, 6, 7, 8], 0) ∧
    (PlacedBinary.fromBytes [1, 2, 3, 4] 4 4 0 ⟨false, false, true, false, false⟩ 8).extend
        (PlacedBinary.fromBytes [5, 6, 7, 8] 4 4 10 ⟨false, false, true, false, false⟩ 8)
        (some 2) = .error .valueError := by
  refine ⟨?_, ?_, rfl, rfl⟩
  · intro me r h
    unfold PlacedBinary.extend at h
    split at h
    · exact Except.noConfusion h
    · next s1 heq =>
      rw [if_pos] at h
      · exact Except.noConfusion h
      · rw [PlacedBinary.byte_of_extendPadded heq]
        exact hbyte
  · have hpad : self2.extendPadded other2 (some m) = .error .valueError := by
      unfold PlacedBinary.extendPadded
      rw [if_pos hgap1]
      exact if_pos hgap2
    unfold PlacedBinary.extend
    rw [hpad]

set_option maxRecDepth 4000 in
/-- C8 witness: a width-8/width-4 pair for the width check, and the
offset-10 pair with `max_extend = 2` for the gap check. -/
theorem c8_extend_failure_semantics_witness :
    (∀ me r,
      (PlacedBinary.fromBytes [1] 1 1 0 ⟨false, false, true, false, false⟩ 8).extend
        (PlacedBinary.fromBytes [1] 1 1 0 ⟨false, false, true, false, false⟩ 4) me ≠ .ok r) ∧
    (PlacedBinary.fromBytes [1, 2, 3, 4] 4 4 0 ⟨false, false, true, false, false⟩ 8).extend
        (PlacedBinary.fromBytes [5, 6, 7, 8] 4 4 10 ⟨false, false, true, false, false⟩ 8)
        (some 2) = .error .valueError ∧
    (do
      let c ← (PlacedBinary.fromBytes [1, 2, 3, 4] 4 4 0 ⟨false, false, true, false, false⟩ 8).extend
        (PlacedBinary.fromBytes [5, 6, 7, 8] 4 4 4 ⟨false, false, true, false, false⟩ 8) none
      pure (c.data.length, c.data.toBytes, c.offset) : Except PyErr (Nat × List Nat × Int)) =
      .ok (8, [1, 2, 3, 4, 5, 6, 7, 8], 0) ∧
    (PlacedBinary.fromBytes [1, 2, 3, 4] 4 4 0 ⟨false, false, true, false, false⟩ 8).extend
        (PlacedBinary.fromBytes [5, 6, 7, 8] 4 4 10 ⟨false, false, true, false, false⟩ 8)
        (some 2) = .error .valueError :=
  c8_extend_failure_semantics
    (PlacedBinary.fromBytes [1] 1 1 0 ⟨false, false, true, false, false⟩ 8)
    (PlacedBinary.fromBytes [1] 1 1 0 ⟨false, false, true, false, false⟩ 4)
    (PlacedBinary.fromBytes [1, 2, 3, 4] 4 4 0 ⟨false, false, true, false, false⟩ 8)
    (PlacedBinary.fromBytes [5, 6, 7, 8] 4 4 10 ⟨false, false, true, false, false⟩ 8)
    2 (by decide) (by decide) (by decide)

end Monistode
